import Mathlib

/-!
Verification development for the CashBackSplitLedger computation engine
(`computations.py`, `models.py`, `utils.py`).

The Python source works on IEEE floats; here amounts, rates and shares are
embedded as exact rationals (`ℚ`), so every arithmetic identity is stated in
exact arithmetic.  Python `dict`s keyed by strings are embedded as association
lists (`List (String × ℚ)`) with first-match lookup; a dict built by
comprehension over a participant list is keyed by the list with duplicates
removed, which `List.dedup` models.  Fallible Python code (`parse_date`
raising `ValueError`) is embedded with `Option`.
-/

namespace SplitLedger

/-- Association-list lookup with default 0, modelling `dict.get(k, 0.0)`. -/
def lookupD : List (String × ℚ) → String → ℚ
  | [], _ => 0
  | (k, v) :: rest, q => if k = q then v else lookupD rest q

/-- Data model of `models.Card`. -/
structure Card where
  name : String
  cashback_rate : ℚ
deriving DecidableEq

/-- Data model of `models.Expense`; `allocations` is the raw share dict. -/
structure Expense where
  id : String
  date : String
  payer : String
  card : String
  merchant : String
  item : String
  amount : ℚ
  allocations : List (String × ℚ)
  notes : String := ""
deriving DecidableEq

/-- Data model of `models.Ledger`. -/
structure Ledger where
  people : List String
  cards : List Card
  expenses : List Expense
  apply_cashback_as_discount : Bool := true
  version : ℤ := 1
deriving DecidableEq

/-- `computations.normalize_allocations`: the dict comprehension
`\x7bp: ... for p in people\x7d` is keyed by `people.dedup`, `s` sums the
clamped values of that dict, and each branch rebuilds the dict over the
same keys.  `n = max(1, len(people))` uses the raw list length. -/
def normalize_allocations (alloc : List (String × ℚ)) (people : List String) :
    List (String × ℚ) :=
  let keys := people.dedup
  let s := (keys.map (fun p => max 0 (lookupD alloc p))).sum
  if s ≤ 0 then
    keys.map (fun p => (p, 1 / (max 1 people.length : ℚ)))
  else
    keys.map (fun p => (p, max 0 (lookupD alloc p) / s))

/-- `computations.build_card_map`: builds the name → rate dict; later list
entries overwrite earlier ones, as in the Python dict comprehension.
`none` models a missing key. -/
def build_card_map (cards : List Card) : String → Option ℚ :=
  cards.foldl (fun f c => fun n => if n = c.name then some c.cashback_rate else f n)
    (fun _ => none)

/-- `computations.expense_split_base`. -/
def expense_split_base (e : Expense) (card_rate : ℚ) (apply_discount : Bool) : ℚ :=
  if apply_discount then e.amount * (1 - card_rate) else e.amount

/-- `computations.expense_cashback`. -/
def expense_cashback (e : Expense) (card_rate : ℚ) : ℚ :=
  e.amount * card_rate

/-- Calendar date, the result of `utils.parse_date`. -/
structure PDate where
  year : ℕ
  month : ℕ
  day : ℕ
deriving DecidableEq

/-- Calendar (lexicographic) strict order on dates, modelling `date.__lt__`. -/
def dateLt (a b : PDate) : Bool :=
  Nat.blt a.year b.year ||
    (a.year == b.year && (Nat.blt a.month b.month ||
      (a.month == b.month && Nat.blt a.day b.day)))

/-- Gregorian leap-year rule used by `datetime.date`. -/
def isLeap (y : ℕ) : Bool :=
  y % 4 == 0 && (y % 100 != 0 || y % 400 == 0)

/-- Number of days of month `m` of year `y`, as validated by `datetime.date`. -/
def daysInMonth (y m : ℕ) : ℕ :=
  if m = 2 then (if isLeap y then 29 else 28)
  else if m = 4 ∨ m = 6 ∨ m = 9 ∨ m = 11 then 30 else 31

/-- Digit string to number, for ASCII digit characters. -/
def digitsToNat (cs : List Char) : ℕ :=
  cs.foldl (fun n c => 10 * n + (c.toNat - 48)) 0

/-- The characters removed by Python `str.strip()`: exactly those on which
`str.isspace()` holds. -/
def pyIsSpace (c : Char) : Bool :=
  c = ' ' ∨ c = '\t' ∨ c = '\n' ∨ c = '\r' ∨ c = '\x0b' ∨ c = '\x0c'
    ∨ c = '\x1c' ∨ c = '\x1d' ∨ c = '\x1e' ∨ c = '\x1f' ∨ c = '\x85'
    ∨ c = '\u00A0' ∨ c = '\u1680' ∨ ('\u2000' ≤ c ∧ c ≤ '\u200A')
    ∨ c = '\u2028' ∨ c = '\u2029' ∨ c = '\u202F' ∨ c = '\u205F' ∨ c = '\u3000'

/-- `str.strip()`: drop whitespace from both ends. -/
def pyStrip (cs : List Char) : List Char :=
  ((cs.dropWhile pyIsSpace).reverse.dropWhile pyIsSpace).reverse

/-- Split a character list on the dash character, keeping empty pieces,
mirroring how the strptime format alternates literals and digit groups. -/
def splitDash : List Char → List (List Char)
  | [] => [[]]
  | c :: rest =>
    if c = '-' then [] :: splitDash rest
    else
      match splitDash rest with
      | [] => [[c]]
      | h :: t => (c :: h) :: t

/-- The strptime day field: the pattern for the day directive is
`3[01]|[12]\d|0[1-9]|[1-9]| [1-9]`, i.e. one or two digits or a space
followed by a nonzero digit. -/
def dayField (dc : List Char) : Option ℕ :=
  if dc.all Char.isDigit ∧ 1 ≤ dc.length ∧ dc.length ≤ 2 then
    some (digitsToNat dc)
  else
    match dc with
    | [' ', c] => if '1' ≤ c ∧ c ≤ '9' then some (c.toNat - 48) else none
    | _ => none

/-- `utils.parse_date`: `datetime.strptime(s.strip(), "%Y-%m-%d").date()`.
The strptime year pattern matches exactly four digits, the month pattern
one or two digits with value 1..12, the day pattern one or two digits or a
space and a nonzero digit; the whole (stripped) string must be consumed,
and `date(y, m, d)` then validates `y ≥ 1` and the day against the month
length.  `none` models the raised `ValueError`.  (ASCII digits only:
CPython's digit patterns additionally match non-ASCII decimal digits, so
this model accepts a subset of the date strings the source accepts.) -/
def parse_date (s : String) : Option PDate :=
  match splitDash (pyStrip s.toList) with
  | [yc, mc, dc] =>
    if yc.all Char.isDigit ∧ yc.length = 4
        ∧ mc.all Char.isDigit ∧ 1 ≤ mc.length ∧ mc.length ≤ 2 then
      match dayField dc with
      | none => none
      | some d =>
        let y := digitsToNat yc
        let m := digitsToNat mc
        if 1 ≤ y ∧ 1 ≤ m ∧ m ≤ 12 ∧ 1 ≤ d ∧ d ≤ daysInMonth y m then
          some ⟨y, m, d⟩
        else none
    else none
  | _ => none

/-- `computations.filter_expenses_by_date`.  The Python loop parses every
record's date before testing the window, so a malformed date raises even
when no bounds are given; `none` models that raise. -/
def filter_expenses_by_date (expenses : List Expense)
    (start stop : Option PDate) : Option (List Expense) :=
  match expenses with
  | [] => some []
  | e :: rest =>
    match parse_date e.date with
    | none => none
    | some ed =>
      match filter_expenses_by_date rest start stop with
      | none => none
      | some out =>
        if (match start with | some s => dateLt ed s | none => false) then some out
        else if (match stop with | some t => dateLt t ed | none => false) then some out
        else some (e :: out)

/-- Per-person running totals of the `compute_summary` loop, as total maps;
keys outside the ledger's people are never read off the final result. -/
structure Acc where
  paid : String → ℚ
  consumed : String → ℚ
  cashback : String → ℚ

/-- All-zero initial totals of `compute_summary`. -/
def initAcc : Acc := ⟨fun _ => 0, fun _ => 0, fun _ => 0⟩

/-- One iteration of the `for e in exps` loop of `compute_summary`.
`consumed[p] += base * alloc.get(p, 0.0)` runs once per occurrence of `p`
in the people list, hence the `List.count` factor; `paid` and `cashback`
are updated only when the payer is a current dict key, i.e. a member of
`people`. -/
def stepExpense (L : Ledger) (a : Acc) (e : Expense) : Acc :=
  let rate := (build_card_map L.cards e.card).getD 0
  let base := expense_split_base e rate L.apply_cashback_as_discount
  let alloc := normalize_allocations e.allocations L.people
  { paid := fun q =>
      a.paid q + (if e.payer ∈ L.people ∧ q = e.payer then e.amount else 0)
    consumed := fun q =>
      a.consumed q + (L.people.count q : ℚ) * (base * lookupD alloc q)
    cashback := fun q =>
      a.cashback q +
        (if e.payer ∈ L.people ∧ q = e.payer then expense_cashback e rate else 0) }

/-- One `compute_summary` output row. -/
structure Summary where
  paid : ℚ
  consumed : ℚ
  net : ℚ
  cashback : ℚ
  net_after_cashback : ℚ
deriving DecidableEq

/-- `computations.compute_summary`; the result dict is keyed by the distinct
participants, `none` models the `ValueError` escaping from the date filter. -/
def compute_summary (L : Ledger) (start stop : Option PDate) :
    Option (List (String × Summary)) :=
  match filter_expenses_by_date L.expenses start stop with
  | none => none
  | some exps =>
    let a := exps.foldl (stepExpense L) initAcc
    some (L.people.dedup.map (fun p =>
      (p, { paid := a.paid p
            consumed := a.consumed p
            net := a.paid p - a.consumed p
            cashback := a.cashback p
            net_after_cashback := (a.paid p - a.consumed p) + a.cashback p })))

/-- Stable descending insertion by amount: the element goes after every
earlier element of at least its amount.  Together with `sortDescByAmt`
this models Python's stable `sort(key=amount, reverse=True)`. -/
def insertByAmt (x : String × ℚ) : List (String × ℚ) → List (String × ℚ)
  | [] => [x]
  | y :: ys => if x.2 < y.2 then y :: insertByAmt x ys else x :: y :: ys

/-- Stable sort, descending by amount (insertion sort; Python's list sort is
stable, so only order of equal amounts matters and both agree). -/
def sortDescByAmt : List (String × ℚ) → List (String × ℚ)
  | [] => []
  | x :: xs => insertByAmt x (sortDescByAmt xs)

/-- State of the `compute_transfers` while loop: the suffixes of the two
sorted worklists from the cursors on (with the current head possibly
rewritten in place, as lines 122 and 126 do) and the transfers so far. -/
structure TState where
  ds : List (String × ℚ)
  cs : List (String × ℚ)
  trs : List (String × String × ℚ)
deriving DecidableEq

/-- The loop has exited: one of the worklists is exhausted. -/
def isFinal (s : TState) : Bool :=
  s.ds.isEmpty || s.cs.isEmpty

/-- One iteration of the `while i < len(debtors) and j < len(creditors)`
loop; the identity on final states. -/
def tstep (eps : ℚ) : TState → TState
  | ⟨[], cs, trs⟩ => ⟨[], cs, trs⟩
  | ⟨ds, [], trs⟩ => ⟨ds, [], trs⟩
  | ⟨(dn, da) :: ds, (cn, ca) :: cs, trs⟩ =>
    let x := min da ca
    ⟨if da - x ≤ eps then ds else (dn, da - x) :: ds,
     if ca - x ≤ eps then cs else (cn, ca - x) :: cs,
     if eps < x then trs ++ [(dn, cn, x)] else trs⟩

/-- The initial worklists of `compute_transfers`: strict-threshold
partition of the net dict, each sorted descending by amount. -/
def initState (net : List (String × ℚ)) (eps : ℚ) : TState :=
  { ds := sortDescByAmt ((net.filter (fun pv => decide (pv.2 < -eps))).map
      (fun pv => (pv.1, -pv.2)))
    cs := sortDescByAmt (net.filter (fun pv => decide (eps < pv.2)))
    trs := [] }

/-- `computations.compute_transfers`.  Whenever `eps ≥ 0` each loop
iteration drops the remaining amount of at least one side to 0 ≤ eps and
so advances a cursor (proved below), hence `|debtors| + |creditors|`
iterations always reach a final state and, `tstep` being the identity
there, the iterate below equals the while loop's result.  (For `eps < 0`
the Python loop need not terminate; see the analysis of that case below.) -/
def compute_transfers (net : List (String × ℚ)) (eps : ℚ) :
    List (String × String × ℚ) :=
  let s0 := initState net eps
  ((tstep eps)^[s0.ds.length + s0.cs.length] s0).trs

/-- Sum of emitted amounts of the transfers whose debtor is `n`. -/
def sumByDebtor (n : String) (trs : List (String × String × ℚ)) : ℚ :=
  ((trs.filter (fun t => t.1 == n)).map (fun t => t.2.2)).sum

/-- Sum of emitted amounts of the transfers whose creditor is `n`. -/
def sumByCreditor (n : String) (trs : List (String × String × ℚ)) : ℚ :=
  ((trs.filter (fun t => t.2.1 == n)).map (fun t => t.2.2)).sum

/-- Sum of the amounts carried by entries named `n` in a worklist. -/
def sumAmt (n : String) (l : List (String × ℚ)) : ℚ :=
  ((l.filter (fun pv => pv.1 == n)).map (fun pv => pv.2)).sum

/-- Sum of the `net` fields of a summary, over all participants. -/
def sumNet (r : List (String × Summary)) : ℚ :=
  (r.map (fun x => x.2.net)).sum

/-- Total of the `net` fields of a `compute_summary` result (0 when the
computation raised). -/
def summaryNetTotal (r : Option (List (String × Summary))) : ℚ :=
  match r with
  | none => 0
  | some l => sumNet l

/-- The `cashback` field of participant `p` in a `compute_summary` result. -/
def summaryCashback (r : Option (List (String × Summary))) (p : String) : ℚ :=
  match r with
  | none => 0
  | some l => ((l.filter (fun x => x.1 == p)).map (fun x => x.2.cashback)).sum

/-- The `consumed` field of participant `p` in a `compute_summary` result. -/
def summaryConsumed (r : Option (List (String × Summary))) (p : String) : ℚ :=
  match r with
  | none => 0
  | some l => ((l.filter (fun x => x.1 == p)).map (fun x => x.2.consumed)).sum

/-- State of the settlement loop after `k` iterations on `net` and `eps`. -/
def loopState (net : List (String × ℚ)) (eps : ℚ) (k : ℕ) : TState :=
  (tstep eps)^[k] (initState net eps)

/-- Concrete card of the consumption-partition scenario: 20% cashback. -/
def cardEx : Card := ⟨"card", 1/5⟩

/-- Concrete expense of the consumption-partition scenario: amount 100 paid
by A with the 20% card, raw allocations A:1, B:1. -/
def expEx : Expense :=
  { id := "e1", date := "2024-01-01", payer := "A", card := "card",
    merchant := "m", item := "i", amount := 100,
    allocations := [("A", 1), ("B", 1)] }

/-- Concrete ledger of the consumption-partition scenario, with
`apply_cashback_as_discount = true`. -/
def ledgerEx : Ledger :=
  { people := ["A", "B"], cards := [cardEx], expenses := [expEx],
    apply_cashback_as_discount := true }

/-- A ledger holding one expense whose date string is malformed. -/
def badDateLedger : Ledger :=
  { people := ["A"], cards := [],
    expenses := [{ id := "e2", date := "oops", payer := "A", card := "",
                   merchant := "", item := "", amount := 1,
                   allocations := [("A", 1)] }] }

/-- A well-formed ledger with `apply_cashback_as_discount = false`, used to
witness the conservation law. -/
def consLedger : Ledger :=
  { people := ["A", "B"], cards := [cardEx],
    expenses := [{ id := "e3", date := "2024-02-29", payer := "B", card := "card",
                   merchant := "m", item := "i", amount := 60,
                   allocations := [("A", 2), ("B", 1)] }],
    apply_cashback_as_discount := false }

/-- Total of `paid - consumed` over a participant list, for the running
totals of the `compute_summary` loop. -/
def netSumAcc (people : List String) (a : Acc) : ℚ :=
  (people.map (fun p => a.paid p - a.consumed p)).sum

/-! General list-sum helpers. -/

theorem lookupD_map_self (l : List String) (f : String → ℚ) (q : String)
    (hq : q ∈ l) : lookupD (l.map (fun p => (p, f p))) q = f q := by
  induction l with
  | nil => cases hq
  | cons a l ih =>
    rcases eq_or_ne a q with h | h
    · subst h; simp [lookupD]
    · have hql : q ∈ l := by
        rcases List.mem_cons.mp hq with h' | h'
        · exact absurd h'.symm h
        · exact h'
      simp [lookupD, h, ih hql]

theorem sum_map_add (l : List String) (f g : String → ℚ) :
    (l.map (fun x => f x + g x)).sum = (l.map f).sum + (l.map g).sum := by
  induction l with
  | nil => simp
  | cons a l ih => simp [ih]; ring

theorem sum_map_sub (l : List String) (f g : String → ℚ) :
    (l.map (fun x => f x - g x)).sum = (l.map f).sum - (l.map g).sum := by
  induction l with
  | nil => simp
  | cons a l ih => simp [ih]; ring

theorem sum_map_const_rat (l : List String) (c : ℚ) :
    (l.map (fun _ => c)).sum = (l.length : ℚ) * c := by
  induction l with
  | nil => simp
  | cons a l ih => simp [ih]; ring

theorem sum_map_div_rat (l : List String) (f : String → ℚ) (c : ℚ) :
    (l.map (fun x => f x / c)).sum = (l.map f).sum / c := by
  induction l with
  | nil => simp
  | cons a l ih => simp [ih]; ring

theorem sum_map_mul_left_rat (l : List String) (f : String → ℚ) (c : ℚ) :
    (l.map (fun x => c * f x)).sum = c * (l.map f).sum := by
  induction l with
  | nil => simp
  | cons a l ih => simp [ih]; ring

theorem sum_map_ite_single (l : List String) (x : String) (c : ℚ)
    (hnd : l.Nodup) (hx : x ∈ l) :
    (l.map (fun p => if p = x then c else 0)).sum = c := by
  induction l with
  | nil => cases hx
  | cons a l ih =>
    rcases List.nodup_cons.mp hnd with ⟨ha, hl⟩
    rcases List.mem_cons.mp hx with h | h
    · subst h
      have hz : ∀ p ∈ l, (if p = x then c else 0) = 0 := by
        intro p hp
        have hpa : p ≠ x := fun e => ha (e ▸ hp)
        simp [hpa]
      rw [List.map_cons, List.sum_cons, List.map_congr_left hz]
      simp [sum_map_const_rat]
    · have haxne : a ≠ x := fun e => ha (e ▸ h)
      rw [List.map_cons, List.sum_cons, if_neg haxne, ih hl h]
      ring

theorem sum_map_eq_zero_of_nonpos (l : List String) (f : String → ℚ)
    (h0 : ∀ x ∈ l, 0 ≤ f x) (hs : (l.map f).sum ≤ 0) :
    ∀ x ∈ l, f x = 0 := by
  induction l with
  | nil => intro x hx; cases hx
  | cons a l ih =>
    have hrest : 0 ≤ (l.map f).sum :=
      List.sum_nonneg (by
        intro q hq
        rcases List.mem_map.mp hq with ⟨p, hp, rfl⟩
        exact h0 p (List.mem_cons_of_mem _ hp))
    have hha : 0 ≤ f a := h0 a (List.mem_cons_self _ _)
    rw [List.map_cons, List.sum_cons] at hs
    intro x hx
    rcases List.mem_cons.mp hx with h | h
    · subst h; linarith
    · exact ih (fun p hp => h0 p (List.mem_cons_of_mem _ hp)) (by linarith) x h

/-! Properties of the allocation normalizer. -/

theorem normalize_eq_map (alloc : List (String × ℚ)) (people : List String)
    (hnd : people.Nodup) :
    ∃ f : String → ℚ,
      normalize_allocations alloc people = people.map (fun p => (p, f p)) ∧
      (∀ p, 0 ≤ f p) ∧
      (people ≠ [] → (people.map f).sum = 1) := by
  have hd : people.dedup = people := List.dedup_eq_self.mpr hnd
  simp only [normalize_allocations, hd]
  split_ifs with hs
  · refine ⟨fun _ => 1 / (max 1 (people.length : ℚ)), rfl, ?_, ?_⟩
    · intro p
      have h1 : (0 : ℚ) < max 1 (people.length : ℚ) :=
        lt_of_lt_of_le one_pos (le_max_left _ _)
      positivity
    · intro hne
      have hlen : 1 ≤ people.length := List.length_pos.mpr hne
      have hlenq : (1 : ℚ) ≤ (people.length : ℚ) := by exact_mod_cast hlen
      have hmax : max 1 (people.length : ℚ) = (people.length : ℚ) :=
        max_eq_right hlenq
      have hne0 : (people.length : ℚ) ≠ 0 := by positivity
      rw [sum_map_const_rat, hmax, mul_one_div, div_self hne0]
  · push_neg at hs
    refine ⟨fun p => max 0 (lookupD alloc p) /
        (people.map (fun p => max 0 (lookupD alloc p))).sum, rfl, ?_, ?_⟩
    · intro p
      exact div_nonneg (le_max_left _ _) (le_of_lt hs)
    · intro _
      rw [sum_map_div_rat, div_self (ne_of_gt hs)]

theorem normalize_nil (alloc : List (String × ℚ)) :
    normalize_allocations alloc [] = [] := by
  simp [normalize_allocations]

/-- C4 (amended): over a non-empty duplicate-free participant list the
normalized values are nonnegative and sum to exactly 1, a fortiori to 1
within 1e-9. -/
theorem normalize_sums_to_one (raw : List (String × ℚ)) (people : List String)
    (hne : people ≠ []) (hnd : people.Nodup) :
    (∀ pv ∈ normalize_allocations raw people, 0 ≤ pv.2)
    ∧ ((normalize_allocations raw people).map (fun pv => pv.2)).sum = 1
    ∧ |((normalize_allocations raw people).map (fun pv => pv.2)).sum - 1|
        ≤ 1 / 1000000000 := by
  obtain ⟨f, hf, hf0, hfs⟩ := normalize_eq_map raw people hnd
  have hvals : (normalize_allocations raw people).map (fun pv => pv.2)
      = people.map f := by
    rw [hf, List.map_map]
    rfl
  have hsum : ((normalize_allocations raw people).map (fun pv => pv.2)).sum = 1 := by
    rw [hvals, hfs hne]
  refine ⟨?_, hsum, by rw [hsum]; norm_num⟩
  intro pv hpv
  rw [hf] at hpv
  rcases List.mem_map.mp hpv with ⟨p, _, rfl⟩
  exact hf0 p

/-- C6: whenever the clamped sum over the participants is nonpositive the
normalizer yields the equal split `1 / max(1, len(people))` at every
participant, and the empty mapping for an empty participant list. -/
theorem normalize_equal_split (alloc : List (String × ℚ)) (people : List String)
    (hS : (people.map (fun p => max 0 (lookupD alloc p))).sum ≤ 0) :
    (∀ p ∈ people, lookupD (normalize_allocations alloc people) p
        = 1 / (max 1 (people.length : ℚ)))
    ∧ (people = [] → normalize_allocations alloc people = []) := by
  have hz : ∀ p ∈ people, max 0 (lookupD alloc p) = 0 :=
    sum_map_eq_zero_of_nonpos people (fun p => max 0 (lookupD alloc p))
      (fun p _ => le_max_left _ _) hS
  have hzd : ∀ p ∈ people.dedup, max 0 (lookupD alloc p) = 0 := by
    intro p hp
    exact hz p (List.mem_dedup.mp hp)
  have hsd : (people.dedup.map (fun p => max 0 (lookupD alloc p))).sum ≤ 0 := by
    rw [List.map_congr_left hzd, sum_map_const_rat]
    simp
  constructor
  · intro p hp
    have hpd : p ∈ people.dedup := List.mem_dedup.mpr hp
    simp only [normalize_allocations, if_pos hsd]
    exact lookupD_map_self people.dedup
      (fun _ => 1 / (max 1 (people.length : ℚ))) p hpd
  · intro he
    subst he
    exact normalize_nil alloc

/-- C9 (amended): over a duplicate-free participant list, normalization is
idempotent, exactly, in exact arithmetic. -/
theorem normalize_idempotent (alloc : List (String × ℚ)) (people : List String)
    (hnd : people.Nodup) :
    normalize_allocations (normalize_allocations alloc people) people
      = normalize_allocations alloc people := by
  rcases eq_or_ne people [] with he | hne
  · subst he
    rw [normalize_nil, normalize_nil]
  · obtain ⟨f, hf, hf0, hfs⟩ := normalize_eq_map alloc people hnd
    have hd : people.dedup = people := List.dedup_eq_self.mpr hnd
    have hmaxf : ∀ p ∈ people,
        max 0 (lookupD (people.map (fun q => (q, f q))) p) = f p := by
      intro p hp
      rw [lookupD_map_self people f p hp]
      exact max_eq_right (hf0 p)
    have hs1 : (people.map (fun p =>
        max 0 (lookupD (people.map (fun q => (q, f q))) p))).sum = 1 := by
      rw [List.map_congr_left hmaxf, hfs hne]
    rw [hf]
    simp only [normalize_allocations, hd, hs1]
    rw [if_neg (by norm_num : ¬ (1 : ℚ) ≤ 0)]
    refine List.map_congr_left ?_
    intro p hp
    rw [hmaxf p hp, div_one]

/-! Properties of the ledger aggregator. -/

theorem stepExpense_netSum (L : Ledger) (a : Acc) (e : Expense)
    (hnd : L.people.Nodup) (hap : L.apply_cashback_as_discount = false)
    (hp : e.payer ∈ L.people) :
    netSumAcc L.people (stepExpense L a e) = netSumAcc L.people a := by
  obtain ⟨f, hf, hf0, hfs⟩ := normalize_eq_map e.allocations L.people hnd
  have hne : L.people ≠ [] := by
    intro h
    rw [h] at hp
    cases hp
  have hcount : ∀ p ∈ L.people, (L.people.count p : ℚ) = 1 := by
    intro p hpm
    rw [List.count_eq_one_of_mem hnd hpm]
    norm_num
  have hpoint : ∀ p ∈ L.people,
      ((stepExpense L a e).paid p - (stepExpense L a e).consumed p)
        = (a.paid p - a.consumed p)
          + ((if p = e.payer then e.amount else 0) - e.amount * f p) := by
    intro p hpm
    have hl : lookupD (normalize_allocations e.allocations L.people) p = f p := by
      rw [hf]
      exact lookupD_map_self L.people f p hpm
    simp only [stepExpense, hl, hcount p hpm, hap, expense_split_base,
      Bool.false_eq_true, if_false, hp, true_and]
    ring
  unfold netSumAcc
  rw [List.map_congr_left hpoint, sum_map_add, sum_map_sub, sum_map_sub,
    sum_map_ite_single L.people e.payer e.amount hnd hp,
    sum_map_mul_left_rat, hfs hne]
  ring

theorem foldl_netSum (L : Ledger) (hnd : L.people.Nodup)
    (hap : L.apply_cashback_as_discount = false) :
    ∀ (exps : List Expense) (a : Acc), (∀ e ∈ exps, e.payer ∈ L.people) →
      netSumAcc L.people (exps.foldl (stepExpense L) a) = netSumAcc L.people a := by
  intro exps
  induction exps with
  | nil => intro a _; rfl
  | cons e rest ih =>
    intro a h
    rw [List.foldl_cons,
      ih (stepExpense L a e) (fun e' he' => h e' (List.mem_cons_of_mem _ he')),
      stepExpense_netSum L a e hnd hap (h e (List.mem_cons_self _ _))]

theorem filter_cons_badDate (e : Expense) (rest : List Expense)
    (start stop : Option PDate) (hp : parse_date e.date = none) :
    filter_expenses_by_date (e :: rest) start stop = none := by
  simp only [filter_expenses_by_date, hp]

theorem filter_cons_badRest (e : Expense) (rest : List Expense)
    (start stop : Option PDate) (ed : PDate) (hp : parse_date e.date = some ed)
    (hf : filter_expenses_by_date rest start stop = none) :
    filter_expenses_by_date (e :: rest) start stop = none := by
  simp only [filter_expenses_by_date, hp, hf]

theorem filter_cons_cases (e : Expense) (rest : List Expense)
    (start stop : Option PDate) (ed : PDate) (out' out : List Expense)
    (hp : parse_date e.date = some ed)
    (hf : filter_expenses_by_date rest start stop = some out')
    (h : filter_expenses_by_date (e :: rest) start stop = some out) :
    out = out' ∨ out = e :: out' := by
  simp only [filter_expenses_by_date, hp, hf] at h
  split_ifs at h with h1 h2
  · exact Or.inl (Option.some.inj h).symm
  · exact Or.inl (Option.some.inj h).symm
  · exact Or.inr (Option.some.inj h).symm

theorem filter_expenses_mem (expenses : List Expense) (start stop : Option PDate) :
    ∀ (out : List Expense),
      filter_expenses_by_date expenses start stop = some out →
      ∀ e ∈ out, e ∈ expenses := by
  induction expenses with
  | nil =>
    intro out h
    simp only [filter_expenses_by_date, Option.some.injEq] at h
    subst h
    intro e he
    cases he
  | cons e rest ih =>
    intro out h
    cases hp : parse_date e.date with
    | none => rw [filter_cons_badDate e rest start stop hp] at h; cases h
    | some ed =>
      cases hf : filter_expenses_by_date rest start stop with
      | none => rw [filter_cons_badRest e rest start stop ed hp hf] at h; cases h
      | some out' =>
        have hsub : ∀ x ∈ out', x ∈ e :: rest :=
          fun x hx => List.mem_cons_of_mem _ (ih out' hf x hx)
        rcases filter_cons_cases e rest start stop ed out' out hp hf h with
          hc | hc
        · subst hc; exact hsub
        · subst hc
          intro x hx
          rcases List.mem_cons.mp hx with hhd | htl
          · subst hhd; exact List.mem_cons_self _ _
          · exact hsub x htl

theorem filter_expenses_isSome (expenses : List Expense) (start stop : Option PDate)
    (h : ∀ e ∈ expenses, (parse_date e.date).isSome) :
    (filter_expenses_by_date expenses start stop).isSome := by
  induction expenses with
  | nil => simp [filter_expenses_by_date]
  | cons e rest ih =>
    have h1 := h e (List.mem_cons_self _ _)
    cases hp : parse_date e.date with
    | none => rw [hp] at h1; cases h1
    | some ed =>
      have h2 := ih (fun e' he' => h e' (List.mem_cons_of_mem _ he'))
      cases hf : filter_expenses_by_date rest start stop with
      | none => rw [hf] at h2; cases h2
      | some out =>
        simp only [filter_expenses_by_date, hp, hf]
        split_ifs <;> simp

/-- C1 (amended): over a duplicate-free participant list, with cashback NOT
applied as a discount and every expense paid by a current participant, the
`net` fields of `compute_summary` sum to 0, exactly. -/
theorem net_conservation (L : Ledger) (start stop : Option PDate)
    (r : List (String × Summary))
    (hnd : L.people.Nodup) (hap : L.apply_cashback_as_discount = false)
    (hpay : ∀ e ∈ L.expenses, e.payer ∈ L.people)
    (h : compute_summary L start stop = some r) :
    sumNet r = 0 := by
  unfold compute_summary at h
  cases hf : filter_expenses_by_date L.expenses start stop with
  | none => rw [hf] at h; cases h
  | some exps =>
    rw [hf] at h
    simp only [Option.some.injEq] at h
    subst h
    have hd : L.people.dedup = L.people := List.dedup_eq_self.mpr hnd
    have hpays : ∀ e ∈ exps, e.payer ∈ L.people :=
      fun e he => hpay e (filter_expenses_mem L.expenses start stop exps hf e he)
    have hfold := foldl_netSum L hnd hap exps initAcc hpays
    have hzero : netSumAcc L.people initAcc = 0 := by
      simp [netSumAcc, initAcc, sum_map_const_rat]
    unfold sumNet
    rw [hd, List.map_map]
    have : netSumAcc L.people (exps.foldl (stepExpense L) initAcc) = 0 := by
      rw [hfold, hzero]
    rw [← this]
    rfl

/-- C3 (amended): `compute_summary` returns a value (does not model a raise)
as soon as every expense date parses as a well-formed four-digit-year
`YYYY-MM-DD` date; a malformed expense date is its only raise path. -/
theorem compute_summary_isSome (L : Ledger) (start stop : Option PDate)
    (h : ∀ e ∈ L.expenses, (parse_date e.date).isSome) :
    (compute_summary L start stop).isSome := by
  unfold compute_summary
  cases hf : filter_expenses_by_date L.expenses start stop with
  | none =>
    have hs := filter_expenses_isSome L.expenses start stop h
    rw [hf] at hs
    cases hs
  | some out => simp

/-! Properties of the settlement reducer. -/

theorem insertByAmt_perm (x : String × ℚ) (l : List (String × ℚ)) :
    (insertByAmt x l).Perm (x :: l) := by
  induction l with
  | nil => exact List.Perm.refl _
  | cons y ys ih =>
    simp only [insertByAmt]
    split_ifs with h
    · exact (ih.cons y).trans (List.Perm.swap x y ys)
    · exact List.Perm.refl _

theorem sortDescByAmt_perm (l : List (String × ℚ)) :
    (sortDescByAmt l).Perm l := by
  induction l with
  | nil => exact List.Perm.refl _
  | cons x xs ih => exact (insertByAmt_perm x (sortDescByAmt xs)).trans (ih.cons x)

theorem mem_of_head_eq {α : Type} (l : List α) (a : α) (h : l.head? = some a) :
    a ∈ l := by
  cases l with
  | nil => cases h
  | cons x xs =>
    simp only [List.head?_cons, Option.some.injEq] at h
    subst h
    exact List.mem_cons_self _ _

theorem tstep_final (eps : ℚ) (s : TState) (h : isFinal s = true) :
    tstep eps s = s := by
  obtain ⟨ds, cs, trs⟩ := s
  cases ds with
  | nil =>
    cases cs with
    | nil => rfl
    | cons c cs' => rfl
  | cons d ds' =>
    cases cs with
    | nil => rfl
    | cons c cs' => simp [isFinal] at h

theorem iterate_fixed (eps : ℚ) (s : TState) (h : isFinal s = true) :
    ∀ n, (tstep eps)^[n] s = s := by
  intro n
  induction n with
  | zero => rfl
  | succ n ih => rw [Function.iterate_succ_apply, tstep_final eps s h, ih]

theorem tstep_size_lt (eps : ℚ) (s : TState) (heps : 0 ≤ eps)
    (h : isFinal s = false) :
    (tstep eps s).ds.length + (tstep eps s).cs.length
      < s.ds.length + s.cs.length := by
  obtain ⟨ds, cs, trs⟩ := s
  cases ds with
  | nil => simp [isFinal] at h
  | cons d ds' =>
    cases cs with
    | nil => simp [isFinal] at h
    | cons c cs' =>
      obtain ⟨dn, da⟩ := d
      obtain ⟨cn, ca⟩ := c
      simp only [tstep]
      rcases le_total da ca with hmin | hmin
      · have h1 : da - min da ca ≤ eps := by
          rw [min_eq_left hmin]
          simpa using heps
        rw [if_pos h1]
        split_ifs with h2
        all_goals simp only [List.length_cons]
        all_goals omega
      · have h2 : ca - min da ca ≤ eps := by
          rw [min_eq_right hmin]
          simpa using heps
        rw [if_pos h2]
        split_ifs with h1
        all_goals simp only [List.length_cons]
        all_goals omega

theorem iterate_final (eps : ℚ) (heps : 0 ≤ eps) :
    ∀ (n : ℕ) (s : TState), s.ds.length + s.cs.length ≤ n + 1 →
      isFinal ((tstep eps)^[n] s) = true := by
  intro n
  induction n with
  | zero =>
    intro s hs
    simp only [Function.iterate_zero, id]
    obtain ⟨ds, cs, trs⟩ := s
    cases ds with
    | nil => rfl
    | cons d ds' =>
      cases cs with
      | nil => rfl
      | cons c cs' =>
        simp only [List.length_cons] at hs
        omega
  | succ n ih =>
    intro s hs
    rw [Function.iterate_succ_apply]
    by_cases hf : isFinal s = true
    · rw [tstep_final eps s hf, iterate_fixed eps s hf n]
      exact hf
    · have hlt := tstep_size_lt eps s heps (Bool.not_eq_true _ ▸ hf)
      exact ih (tstep eps s) (by omega)

theorem tstep_preserve_gt (eps : ℚ) (s : TState)
    (hd : ∀ pv ∈ s.ds, eps < pv.2) (hc : ∀ pv ∈ s.cs, eps < pv.2) :
    (∀ pv ∈ (tstep eps s).ds, eps < pv.2)
    ∧ (∀ pv ∈ (tstep eps s).cs, eps < pv.2) := by
  obtain ⟨ds, cs, trs⟩ := s
  cases ds with
  | nil =>
    cases cs with
    | nil => exact ⟨hd, hc⟩
    | cons c cs' => exact ⟨hd, hc⟩
  | cons d ds' =>
    cases cs with
    | nil => exact ⟨hd, hc⟩
    | cons c cs' =>
      obtain ⟨dn, da⟩ := d
      obtain ⟨cn, ca⟩ := c
      simp only [tstep]
      constructor
      · split_ifs with h1
        · intro pv hpv
          exact hd pv (List.mem_cons_of_mem _ hpv)
        · intro pv hpv
          rcases List.mem_cons.mp hpv with rfl | hm
          · exact lt_of_not_ge fun hge => h1 hge
          · exact hd pv (List.mem_cons_of_mem _ hm)
      · split_ifs with h2
        · intro pv hpv
          exact hc pv (List.mem_cons_of_mem _ hpv)
        · intro pv hpv
          rcases List.mem_cons.mp hpv with rfl | hm
          · exact lt_of_not_ge fun hge => h2 hge
          · exact hc pv (List.mem_cons_of_mem _ hm)

theorem initState_gt (net : List (String × ℚ)) (eps : ℚ) :
    (∀ pv ∈ (initState net eps).ds, eps < pv.2)
    ∧ (∀ pv ∈ (initState net eps).cs, eps < pv.2) := by
  constructor
  · intro pv hpv
    have hm := (sortDescByAmt_perm _).mem_iff.mp hpv
    rcases List.mem_map.mp hm with ⟨⟨p, v⟩, hpf, rfl⟩
    have hv := List.of_mem_filter hpf
    simp only [decide_eq_true_eq] at hv
    simpa using by linarith
  · intro pv hpv
    have hm := (sortDescByAmt_perm _).mem_iff.mp hpv
    have hv := List.of_mem_filter hm
    simpa only [decide_eq_true_eq] using hv

theorem loopState_gt (net : List (String × ℚ)) (eps : ℚ) :
    ∀ k, (∀ pv ∈ (loopState net eps k).ds, eps < pv.2)
      ∧ (∀ pv ∈ (loopState net eps k).cs, eps < pv.2) := by
  intro k
  induction k with
  | zero => exact initState_gt net eps
  | succ k ih =>
    have h := tstep_preserve_gt eps (loopState net eps k) ih.1 ih.2
    simpa only [loopState, Function.iterate_succ_apply'] using h

theorem tstep_trs_gt (eps : ℚ) (s : TState)
    (h : ∀ t ∈ s.trs, eps < t.2.2) :
    ∀ t ∈ (tstep eps s).trs, eps < t.2.2 := by
  obtain ⟨ds, cs, trs⟩ := s
  cases ds with
  | nil =>
    cases cs with
    | nil => exact h
    | cons c cs' => exact h
  | cons d ds' =>
    cases cs with
    | nil => exact h
    | cons c cs' =>
      obtain ⟨dn, da⟩ := d
      obtain ⟨cn, ca⟩ := c
      simp only [tstep]
      split_ifs with hx
      · intro t ht
        rcases List.mem_append.mp ht with hold | hnew
        · exact h t hold
        · rcases List.mem_singleton.mp hnew with rfl
          exact hx
      · exact h

theorem loopState_trs_gt (net : List (String × ℚ)) (eps : ℚ) :
    ∀ k, ∀ t ∈ (loopState net eps k).trs, eps < t.2.2 := by
  intro k
  induction k with
  | zero =>
    intro t ht
    cases ht
  | succ k ih =>
    have h := tstep_trs_gt eps (loopState net eps k) ih
    simpa only [loopState, Function.iterate_succ_apply'] using h

theorem sumAmt_cons (n : String) (pv : String × ℚ) (l : List (String × ℚ)) :
    sumAmt n (pv :: l) = (if pv.1 == n then pv.2 else 0) + sumAmt n l := by
  cases h : pv.1 == n
  · simp [sumAmt, List.filter_cons, h]
  · simp [sumAmt, List.filter_cons, h]

theorem sumByDebtor_append_single (n : String) (trs : List (String × String × ℚ))
    (t : String × String × ℚ) :
    sumByDebtor n (trs ++ [t])
      = sumByDebtor n trs + (if t.1 == n then t.2.2 else 0) := by
  cases h : t.1 == n
  · simp [sumByDebtor, List.filter_append, List.filter_cons, h]
  · simp [sumByDebtor, List.filter_append, List.filter_cons, h]

theorem sumByCreditor_append_single (n : String)
    (trs : List (String × String × ℚ)) (t : String × String × ℚ) :
    sumByCreditor n (trs ++ [t])
      = sumByCreditor n trs + (if t.2.1 == n then t.2.2 else 0) := by
  cases h : t.2.1 == n
  · simp [sumByCreditor, List.filter_append, List.filter_cons, h]
  · simp [sumByCreditor, List.filter_append, List.filter_cons, h]

theorem sumAmt_nonneg (n : String) (l : List (String × ℚ))
    (h : ∀ pv ∈ l, 0 ≤ pv.2) : 0 ≤ sumAmt n l := by
  refine List.sum_nonneg ?_
  intro q hq
  rcases List.mem_map.mp hq with ⟨pv, hpv, rfl⟩
  exact h pv (List.mem_filter.mp hpv).1

theorem sumAmt_perm (n : String) (l₁ l₂ : List (String × ℚ)) (h : l₁.Perm l₂) :
    sumAmt n l₁ = sumAmt n l₂ :=
  ((h.filter _).map _).sum_eq

theorem sumAmt_eq_zero (n : String) (l : List (String × ℚ))
    (h : ∀ pv ∈ l, pv.1 ≠ n) : sumAmt n l = 0 := by
  have hf : l.filter (fun pv => pv.1 == n) = [] := by
    rw [List.filter_eq_nil_iff]
    intro pv hpv
    simp [h pv hpv]
  simp [sumAmt, hf]

theorem tstep_debtor_mono (eps : ℚ) (s : TState) (n : String)
    (hd0 : ∀ pv ∈ s.ds, 0 ≤ pv.2) (hc0 : ∀ pv ∈ s.cs, 0 ≤ pv.2) :
    sumByDebtor n (tstep eps s).trs + sumAmt n (tstep eps s).ds
      ≤ sumByDebtor n s.trs + sumAmt n s.ds := by
  obtain ⟨ds, cs, trs⟩ := s
  cases ds with
  | nil =>
    cases cs with
    | nil => exact le_refl _
    | cons c cs' => exact le_refl _
  | cons d ds' =>
    cases cs with
    | nil => exact le_refl _
    | cons c cs' =>
      obtain ⟨dn, da⟩ := d
      obtain ⟨cn, ca⟩ := c
      have hda : 0 ≤ da := hd0 (dn, da) (List.mem_cons_self _ _)
      have hca : 0 ≤ ca := hc0 (cn, ca) (List.mem_cons_self _ _)
      have hxda : min da ca ≤ da := min_le_left _ _
      have hx0 : 0 ≤ min da ca := le_min hda hca
      simp only [tstep]
      by_cases hem : eps < min da ca
      · by_cases hdrop : da - min da ca ≤ eps
        · rw [if_pos hem, if_pos hdrop, sumByDebtor_append_single, sumAmt_cons]
          dsimp only
          split_ifs with hdn
          all_goals linarith
        · rw [if_pos hem, if_neg hdrop, sumByDebtor_append_single,
            sumAmt_cons, sumAmt_cons]
          dsimp only
          split_ifs with hdn
          all_goals linarith
      · by_cases hdrop : da - min da ca ≤ eps
        · rw [if_neg hem, if_pos hdrop, sumAmt_cons]
          dsimp only
          split_ifs with hdn
          all_goals linarith
        · rw [if_neg hem, if_neg hdrop, sumAmt_cons, sumAmt_cons]
          dsimp only
          split_ifs with hdn
          all_goals linarith

theorem tstep_creditor_mono (eps : ℚ) (s : TState) (n : String)
    (hd0 : ∀ pv ∈ s.ds, 0 ≤ pv.2) (hc0 : ∀ pv ∈ s.cs, 0 ≤ pv.2) :
    sumByCreditor n (tstep eps s).trs + sumAmt n (tstep eps s).cs
      ≤ sumByCreditor n s.trs + sumAmt n s.cs := by
  obtain ⟨ds, cs, trs⟩ := s
  cases ds with
  | nil =>
    cases cs with
    | nil => exact le_refl _
    | cons c cs' => exact le_refl _
  | cons d ds' =>
    cases cs with
    | nil => exact le_refl _
    | cons c cs' =>
      obtain ⟨dn, da⟩ := d
      obtain ⟨cn, ca⟩ := c
      have hda : 0 ≤ da := hd0 (dn, da) (List.mem_cons_self _ _)
      have hca : 0 ≤ ca := hc0 (cn, ca) (List.mem_cons_self _ _)
      have hxca : min da ca ≤ ca := min_le_right _ _
      have hx0 : 0 ≤ min da ca := le_min hda hca
      simp only [tstep]
      by_cases hem : eps < min da ca
      · by_cases hdrop : ca - min da ca ≤ eps
        · rw [if_pos hem, if_pos hdrop, sumByCreditor_append_single, sumAmt_cons]
          dsimp only
          split_ifs with hcn
          all_goals linarith
        · rw [if_pos hem, if_neg hdrop, sumByCreditor_append_single,
            sumAmt_cons, sumAmt_cons]
          dsimp only
          split_ifs with hcn
          all_goals linarith
      · by_cases hdrop : ca - min da ca ≤ eps
        · rw [if_neg hem, if_pos hdrop, sumAmt_cons]
          dsimp only
          split_ifs with hcn
          all_goals linarith
        · rw [if_neg hem, if_neg hdrop, sumAmt_cons, sumAmt_cons]
          dsimp only
          split_ifs with hcn
          all_goals linarith

theorem loopState_succ (net : List (String × ℚ)) (eps : ℚ) (k : ℕ) :
    loopState net eps (k + 1) = tstep eps (loopState net eps k) := by
  simp [loopState, Function.iterate_succ_apply']

theorem loopState_debtor_bound (net : List (String × ℚ)) (eps : ℚ) (n : String)
    (heps : 0 ≤ eps) :
    ∀ k, sumByDebtor n (loopState net eps k).trs
        + sumAmt n (loopState net eps k).ds
      ≤ sumAmt n (initState net eps).ds := by
  intro k
  induction k with
  | zero => simp [loopState, sumByDebtor, initState]
  | succ k ih =>
    have hgt := loopState_gt net eps k
    have hd0 : ∀ pv ∈ (loopState net eps k).ds, 0 ≤ pv.2 :=
      fun pv h => le_trans heps (le_of_lt (hgt.1 pv h))
    have hc0 : ∀ pv ∈ (loopState net eps k).cs, 0 ≤ pv.2 :=
      fun pv h => le_trans heps (le_of_lt (hgt.2 pv h))
    have hstep := tstep_debtor_mono eps (loopState net eps k) n hd0 hc0
    rw [loopState_succ]
    exact le_trans hstep ih

theorem loopState_creditor_bound (net : List (String × ℚ)) (eps : ℚ) (n : String)
    (heps : 0 ≤ eps) :
    ∀ k, sumByCreditor n (loopState net eps k).trs
        + sumAmt n (loopState net eps k).cs
      ≤ sumAmt n (initState net eps).cs := by
  intro k
  induction k with
  | zero => simp [loopState, sumByCreditor, initState]
  | succ k ih =>
    have hgt := loopState_gt net eps k
    have hd0 : ∀ pv ∈ (loopState net eps k).ds, 0 ≤ pv.2 :=
      fun pv h => le_trans heps (le_of_lt (hgt.1 pv h))
    have hc0 : ∀ pv ∈ (loopState net eps k).cs, 0 ≤ pv.2 :=
      fun pv h => le_trans heps (le_of_lt (hgt.2 pv h))
    have hstep := tstep_creditor_mono eps (loopState net eps k) n hd0 hc0
    rw [loopState_succ]
    exact le_trans hstep ih

theorem sumAmt_debtors_filter (eps : ℚ) (n : String) :
    ∀ (net : List (String × ℚ)), (net.map Prod.fst).Nodup →
      sumAmt n ((net.filter (fun pv => decide (pv.2 < -eps))).map
          (fun pv => (pv.1, -pv.2)))
        ≤ max 0 (-(lookupD net n)) := by
  intro net
  induction net with
  | nil =>
    intro _
    simp [sumAmt, lookupD]
  | cons kv rest ih =>
    intro hnd
    obtain ⟨k, v⟩ := kv
    rw [List.map_cons] at hnd
    rcases List.nodup_cons.mp hnd with ⟨hk, hrest⟩
    by_cases hkn : k = n
    · subst hkn
      have hz : sumAmt k ((rest.filter
          (fun pv => decide (pv.2 < -eps))).map (fun pv => (pv.1, -pv.2))) = 0 := by
        apply sumAmt_eq_zero
        intro pv hpv
        rcases List.mem_map.mp hpv with ⟨qv, hpf, rfl⟩
        have hpm : qv ∈ rest := List.mem_of_mem_filter hpf
        intro he
        dsimp at he
        exact hk (List.mem_map.mpr ⟨qv, hpm, he⟩)
      simp only [List.filter_cons]
      by_cases hv : v < -eps
      · rw [if_pos (by simpa using hv), List.map_cons, sumAmt_cons, hz]
        simp only [lookupD, if_pos rfl]
        simp
      · rw [if_neg (by simpa using hv), hz]
        simp only [lookupD, if_pos rfl]
        exact le_max_left _ _
    · have hlook : lookupD ((k, v) :: rest) n = lookupD rest n := by
        simp [lookupD, hkn]
      simp only [List.filter_cons]
      rw [hlook]
      by_cases hv : v < -eps
      · rw [if_pos (by simpa using hv), List.map_cons, sumAmt_cons]
        have hb : (k == n) = false := by
          simpa using hkn
        dsimp only
        rw [hb]
        simpa using ih hrest
      · rw [if_neg (by simpa using hv)]
        exact ih hrest

theorem sumAmt_creditors_filter (eps : ℚ) (n : String) :
    ∀ (net : List (String × ℚ)), (net.map Prod.fst).Nodup →
      sumAmt n (net.filter (fun pv => decide (eps < pv.2)))
        ≤ max 0 (lookupD net n) := by
  intro net
  induction net with
  | nil =>
    intro _
    simp [sumAmt, lookupD]
  | cons kv rest ih =>
    intro hnd
    obtain ⟨k, v⟩ := kv
    rw [List.map_cons] at hnd
    rcases List.nodup_cons.mp hnd with ⟨hk, hrest⟩
    by_cases hkn : k = n
    · subst hkn
      have hz : sumAmt k (rest.filter (fun pv => decide (eps < pv.2))) = 0 := by
        apply sumAmt_eq_zero
        intro pv hpv
        have hpm : pv ∈ rest := List.mem_of_mem_filter hpv
        intro he
        exact hk (List.mem_map.mpr ⟨pv, hpm, he⟩)
      simp only [List.filter_cons]
      by_cases hv : eps < v
      · rw [if_pos (by simpa using hv), sumAmt_cons, hz]
        simp only [lookupD, if_pos rfl]
        simp
      · rw [if_neg (by simpa using hv), hz]
        simp only [lookupD, if_pos rfl]
        exact le_max_left _ _
    · have hlook : lookupD ((k, v) :: rest) n = lookupD rest n := by
        simp [lookupD, hkn]
      simp only [List.filter_cons]
      rw [hlook]
      by_cases hv : eps < v
      · rw [if_pos (by simpa using hv), sumAmt_cons]
        have hb : (k == n) = false := by
          simpa using hkn
        dsimp only
        rw [hb]
        simpa using ih hrest
      · rw [if_neg (by simpa using hv)]
        exact ih hrest

theorem sumAmt_debtors_init (net : List (String × ℚ)) (eps : ℚ) (n : String)
    (hnd : (net.map Prod.fst).Nodup) :
    sumAmt n (initState net eps).ds ≤ max 0 (-(lookupD net n)) := by
  have hperm := sortDescByAmt_perm
    ((net.filter (fun pv => decide (pv.2 < -eps))).map (fun pv => (pv.1, -pv.2)))
  simp only [initState]
  rw [sumAmt_perm n _ _ hperm]
  exact sumAmt_debtors_filter eps n net hnd

theorem sumAmt_creditors_init (net : List (String × ℚ)) (eps : ℚ) (n : String)
    (hnd : (net.map Prod.fst).Nodup) :
    sumAmt n (initState net eps).cs ≤ max 0 (lookupD net n) := by
  have hperm := sortDescByAmt_perm (net.filter (fun pv => decide (eps < pv.2)))
  simp only [initState]
  rw [sumAmt_perm n _ _ hperm]
  exact sumAmt_creditors_filter eps n net hnd

theorem compute_transfers_eq_loopState (net : List (String × ℚ)) (eps : ℚ) :
    compute_transfers net eps
      = (loopState net eps
          ((initState net eps).ds.length + (initState net eps).cs.length)).trs :=
  rfl

theorem initState_of_small (net : List (String × ℚ)) (eps : ℚ)
    (h : ∀ pv ∈ net, |pv.2| ≤ eps) :
    initState net eps = ⟨[], [], []⟩ := by
  have h1 : net.filter (fun pv => decide (pv.2 < -eps)) = [] := by
    rw [List.filter_eq_nil_iff]
    intro pv hpv
    have hlo := (abs_le.mp (h pv hpv)).1
    simp only [decide_eq_true_eq, not_lt]
    linarith
  have h2 : net.filter (fun pv => decide (eps < pv.2)) = [] := by
    rw [List.filter_eq_nil_iff]
    intro pv hpv
    have hhi := (abs_le.mp (h pv hpv)).2
    simp only [decide_eq_true_eq, not_lt]
    linarith
  simp [initState, h1, h2, sortDescByAmt]

/-- C5 (amended): for positive eps and a net mapping with distinct keys, the
amounts emitted by `compute_transfers`, summed per debtor, never exceed that
debtor's original debt `-net[p]` (clamped at 0), and summed per creditor
never exceed that creditor's original credit `net[p]` (clamped at 0); and
when every balance is within eps of 0 the returned list is empty.  (The
spec's stronger claim, that the sums equal the original debt and credit
within eps, fails; see the counterexample.) -/
theorem settlement_bounds (net : List (String × ℚ)) (eps : ℚ)
    (heps : 0 < eps) (hnd : (net.map Prod.fst).Nodup) :
    (∀ n : String,
      sumByDebtor n (compute_transfers net eps) ≤ max 0 (-(lookupD net n))
      ∧ sumByCreditor n (compute_transfers net eps) ≤ max 0 (lookupD net n))
    ∧ ((∀ pv ∈ net, |pv.2| ≤ eps) → compute_transfers net eps = []) := by
  have heps' : 0 ≤ eps := le_of_lt heps
  constructor
  · intro n
    have hgt := loopState_gt net eps
      ((initState net eps).ds.length + (initState net eps).cs.length)
    have hdnn : 0 ≤ sumAmt n (loopState net eps
        ((initState net eps).ds.length + (initState net eps).cs.length)).ds :=
      sumAmt_nonneg n _ (fun pv h => le_trans heps' (le_of_lt (hgt.1 pv h)))
    have hcnn : 0 ≤ sumAmt n (loopState net eps
        ((initState net eps).ds.length + (initState net eps).cs.length)).cs :=
      sumAmt_nonneg n _ (fun pv h => le_trans heps' (le_of_lt (hgt.2 pv h)))
    have hdb := loopState_debtor_bound net eps n heps'
      ((initState net eps).ds.length + (initState net eps).cs.length)
    have hcb := loopState_creditor_bound net eps n heps'
      ((initState net eps).ds.length + (initState net eps).cs.length)
    have hdi := sumAmt_debtors_init net eps n hnd
    have hci := sumAmt_creditors_init net eps n hnd
    rw [compute_transfers_eq_loopState]
    exact ⟨by linarith, by linarith⟩
  · intro hsmall
    have hinit := initState_of_small net eps hsmall
    rw [compute_transfers_eq_loopState]
    unfold loopState
    rw [hinit, iterate_fixed eps ⟨[], [], []⟩ rfl]

/-- C8 (amended): whenever eps is nonnegative, the matching loop of
`compute_transfers` reaches a final state within
`|debtors| + |creditors| - 1` iterations (natural subtraction; both lists
empty means it is final immediately), because each iteration exhausts at
least one side.  For a negative eps the loop need not terminate at all; see
the counterexample. -/
theorem settlement_terminates (net : List (String × ℚ)) (eps : ℚ)
    (heps : 0 ≤ eps) :
    isFinal (loopState net eps
      ((initState net eps).ds.length + (initState net eps).cs.length - 1))
      = true := by
  unfold loopState
  apply iterate_final eps heps
  omega

/-- C10: for every net mapping and nonnegative eps, at every point of the
matching loop all remaining worklist amounts, in particular the current
debtor's and creditor's, strictly exceed eps, so the transfer candidate
`x = min(damt, camt)` always exceeds eps, the `if x > eps` guard never
fails, and every emitted amount exceeds eps and is strictly positive. -/
theorem settlement_loop_invariant (net : List (String × ℚ)) (eps : ℚ) (k : ℕ)
    (heps : 0 ≤ eps) :
    (∀ pv ∈ (loopState net eps k).ds, eps < pv.2)
    ∧ (∀ pv ∈ (loopState net eps k).cs, eps < pv.2)
    ∧ (∀ d c : String × ℚ, (loopState net eps k).ds.head? = some d →
        (loopState net eps k).cs.head? = some c → eps < min d.2 c.2)
    ∧ (∀ t ∈ (loopState net eps k).trs, eps < t.2.2 ∧ 0 < t.2.2) := by
  have hgt := loopState_gt net eps k
  have htrs := loopState_trs_gt net eps k
  refine ⟨hgt.1, hgt.2, ?_, fun t ht =>
    ⟨htrs t ht, lt_of_le_of_lt heps (htrs t ht)⟩⟩
  intro d c hd hc
  exact lt_min (hgt.1 d (mem_of_head_eq _ _ hd)) (hgt.2 c (mem_of_head_eq _ _ hc))

section ConcreteEvaluation

attribute [local semireducible] Rat.add Rat.mul Rat.sub Rat.inv

/-- C1 counterexample: on the consumption-partition ledger, with
`apply_cashback_as_discount = true` and card rate 0.2, the payer's 100 is
recorded as paid while only the split base 80 is consumed, so the nets sum
to 20, not 0 within 1e-6; the claim fails as stated. -/
theorem c1_counterexample :
    ¬ (|summaryNetTotal (compute_summary ledgerEx none none)| ≤ 1 / 1000000) := by
  decide

/-- C1 witness: the conservation theorem applied to a concrete ledger with
`apply_cashback_as_discount = false` and a valid payer. -/
theorem c1_witness :
    (consLedger.people.Nodup
      ∧ consLedger.apply_cashback_as_discount = false
      ∧ (∀ e ∈ consLedger.expenses, e.payer ∈ consLedger.people)
      ∧ compute_summary consLedger none none
          = some [("A", ⟨0, 40, -40, 0, -40⟩), ("B", ⟨60, 20, 40, 12, 52⟩)])
    ∧ sumNet [("A", ⟨0, 40, -40, 0, -40⟩), ("B", ⟨60, 20, 40, 12, 52⟩)] = 0 :=
  ⟨⟨by decide, rfl, by decide, by decide⟩,
    net_conservation consLedger none none
      [("A", ⟨0, 40, -40, 0, -40⟩), ("B", ⟨60, 20, 40, 12, 52⟩)]
      (by decide) rfl (by decide) (by decide)⟩

/-- C2 (amended): on the consumption-partition scenario the split base is
80 and consumed is 40 for each of A and B, but the cashback credited to the
payer is `amount * rate = 20`, not 16, and the non-payer gets 0. -/
theorem c2_consumption_partition :
    expense_split_base expEx ((build_card_map ledgerEx.cards expEx.card).getD 0)
        ledgerEx.apply_cashback_as_discount = 80
    ∧ summaryConsumed (compute_summary ledgerEx none none) "A" = 40
    ∧ summaryConsumed (compute_summary ledgerEx none none) "B" = 40
    ∧ summaryCashback (compute_summary ledgerEx none none) "A" = 20
    ∧ summaryCashback (compute_summary ledgerEx none none) "B" = 0 := by
  decide

/-- C2 counterexample: the payer's cashback in that scenario is not 16 (it
is 20 = 100 * 0.2, since `expense_cashback` uses the full amount, not the
split base). -/
theorem c2_counterexample :
    summaryCashback (compute_summary ledgerEx none none) "A" ≠ 16 := by
  decide

/-- C3 counterexample: an expense whose date string does not parse makes
`compute_summary` raise (modelled as `none`) even with no date window, so
the three core functions are not exception-free for every input shape. -/
theorem c3_counterexample :
    compute_summary badDateLedger none none = none := by
  decide

/-- C3 witness: the totality theorem applied to a ledger whose dates all
parse. -/
theorem c3_witness :
    (∀ e ∈ ledgerEx.expenses, (parse_date e.date).isSome)
    ∧ (compute_summary ledgerEx none none).isSome :=
  ⟨by decide, compute_summary_isSome ledgerEx none none (by decide)⟩

/-- C4 counterexample: over the participant list with a duplicate name the
Python dict collapses the two entries but divides by the raw length, so the
normalized values of an empty raw mapping sum to 1/2, not 1 within 1e-9. -/
theorem c4_counterexample :
    ¬ (|((normalize_allocations [] ["A", "A"]).map (fun pv => pv.2)).sum - 1|
        ≤ 1 / 1000000000) := by
  decide

/-- C4 witness: the normalization theorem applied to a concrete raw mapping
over a duplicate-free participant list. -/
theorem c4_witness :
    ((["A", "B"] : List String) ≠ [] ∧ (["A", "B"] : List String).Nodup)
    ∧ ((∀ pv ∈ normalize_allocations [("A", 3), ("B", 1)] ["A", "B"], 0 ≤ pv.2)
      ∧ ((normalize_allocations [("A", 3), ("B", 1)] ["A", "B"]).map
          (fun pv => pv.2)).sum = 1
      ∧ |((normalize_allocations [("A", 3), ("B", 1)] ["A", "B"]).map
          (fun pv => pv.2)).sum - 1| ≤ 1 / 1000000000) :=
  ⟨⟨by decide, by decide⟩,
    normalize_sums_to_one [("A", 3), ("B", 1)] ["A", "B"] (by decide) (by decide)⟩

/-- C5 counterexample: with net balances A:+100, B:-1 the loop stops once
the only debtor is exhausted, so creditor A receives 1, which does not
reproduce the original credit 100 within eps; the per-creditor equality
fails as stated. -/
theorem c5_counterexample :
    ¬ (|sumByCreditor "A" (compute_transfers [("A", 100), ("B", -1)] (1 / 1000000))
        - 100| ≤ 1 / 1000000) := by
  decide

/-- C5 witness: the settlement bound theorem applied to a concrete balanced
net mapping. -/
theorem c5_witness :
    ((0 : ℚ) < 1 / 2 ∧ (([("A", 5), ("B", -5)] : List (String × ℚ)).map
        Prod.fst).Nodup)
    ∧ ((∀ n : String,
        sumByDebtor n (compute_transfers [("A", 5), ("B", -5)] (1 / 2))
            ≤ max 0 (-(lookupD [("A", 5), ("B", -5)] n))
        ∧ sumByCreditor n (compute_transfers [("A", 5), ("B", -5)] (1 / 2))
            ≤ max 0 (lookupD [("A", 5), ("B", -5)] n))
      ∧ ((∀ pv ∈ ([("A", 5), ("B", -5)] : List (String × ℚ)), |pv.2| ≤ (1 / 2 : ℚ))
          → compute_transfers [("A", 5), ("B", -5)] (1 / 2) = [])) :=
  ⟨⟨by norm_num, by decide⟩,
    settlement_bounds [("A", 5), ("B", -5)] (1 / 2) (by norm_num) (by decide)⟩

/-- C6 witness: the equal-split theorem applied to an all-clamped raw
mapping over three participants, yielding 1/3 each. -/
theorem c6_witness :
    ((["A", "B", "C"].map (fun p => max 0 (lookupD [("A", -2)] p))).sum ≤ 0)
    ∧ ((∀ p ∈ ["A", "B", "C"],
        lookupD (normalize_allocations [("A", -2)] ["A", "B", "C"]) p
          = 1 / (max 1 ((["A", "B", "C"] : List String).length : ℚ)))
      ∧ ((["A", "B", "C"] : List String) = []
          → normalize_allocations [("A", -2)] ["A", "B", "C"] = [])) :=
  ⟨by decide, normalize_equal_split [("A", -2)] ["A", "B", "C"] (by decide)⟩

/-- C7: on net balances A:+30, B:+10, C:-40 with the default eps of 1e-6,
the reducer emits exactly the two transfers C→A of 30 (largest creditor
first) then C→B of 10, and C pays 40 in total. -/
theorem c7_settlement :
    compute_transfers [("A", 30), ("B", 10), ("C", -40)] (1 / 1000000)
        = [("C", "A", 30), ("C", "B", 10)]
    ∧ sumByDebtor "C"
        (compute_transfers [("A", 30), ("B", 10), ("C", -40)] (1 / 1000000)) = 40
    ∧ (compute_transfers [("A", 30), ("B", 10), ("C", -40)] (1 / 1000000)).length
        = 2 := by
  decide

/-- C8 counterexample: with eps = -1 and the net mapping A:0 the single
debtor and single creditor never drop to ≤ eps, so after the claimed bound
of 1 iteration the loop is still running (and in fact never terminates);
the claim fails for negative eps. -/
theorem c8_counterexample :
    isFinal (loopState [("A", 0)] (-1)
      ((initState [("A", 0)] (-1)).ds.length
        + (initState [("A", 0)] (-1)).cs.length - 1)) = false := by
  decide

/-- C8 witness: the termination bound applied to a concrete net mapping with
the default eps. -/
theorem c8_witness :
    (0 : ℚ) ≤ 1 / 1000000
    ∧ isFinal (loopState [("A", 30), ("B", 10), ("C", -40)] (1 / 1000000)
        ((initState [("A", 30), ("B", 10), ("C", -40)] (1 / 1000000)).ds.length
          + (initState [("A", 30), ("B", 10), ("C", -40)]
              (1 / 1000000)).cs.length - 1)) = true :=
  ⟨by norm_num,
    settlement_terminates [("A", 30), ("B", 10), ("C", -40)] (1 / 1000000)
      (by norm_num)⟩

/-- C9 counterexample: over the duplicate-carrying participant list A, A the
first normalization of an empty raw mapping gives the single entry A ↦ 1/2,
and normalizing that output again rescales it to A ↦ 1, so normalization is
not idempotent for every participant list. -/
theorem c9_counterexample :
    normalize_allocations (normalize_allocations [] ["A", "A"]) ["A", "A"]
      ≠ normalize_allocations [] ["A", "A"] := by
  decide

/-- C9 witness: idempotence applied to a concrete raw mapping over a
duplicate-free participant list. -/
theorem c9_witness :
    (["A", "B"] : List String).Nodup
    ∧ normalize_allocations
        (normalize_allocations [("A", 3), ("B", 1)] ["A", "B"]) ["A", "B"]
      = normalize_allocations [("A", 3), ("B", 1)] ["A", "B"] :=
  ⟨by decide, normalize_idempotent [("A", 3), ("B", 1)] ["A", "B"] (by decide)⟩

/-- C10 witness: the loop invariant applied after one iteration on a
concrete net mapping with the default eps. -/
theorem c10_witness :
    (0 : ℚ) ≤ 1 / 1000000
    ∧ ((∀ pv ∈ (loopState [("A", 30), ("B", -40)] (1 / 1000000) 1).ds,
          (1 / 1000000 : ℚ) < pv.2)
      ∧ (∀ pv ∈ (loopState [("A", 30), ("B", -40)] (1 / 1000000) 1).cs,
          (1 / 1000000 : ℚ) < pv.2)
      ∧ (∀ d c : String × ℚ,
          (loopState [("A", 30), ("B", -40)] (1 / 1000000) 1).ds.head? = some d →
          (loopState [("A", 30), ("B", -40)] (1 / 1000000) 1).cs.head? = some c →
          (1 / 1000000 : ℚ) < min d.2 c.2)
      ∧ (∀ t ∈ (loopState [("A", 30), ("B", -40)] (1 / 1000000) 1).trs,
          (1 / 1000000 : ℚ) < t.2.2 ∧ 0 < t.2.2)) :=
  ⟨by norm_num,
    settlement_loop_invariant [("A", 30), ("B", -40)] (1 / 1000000) 1
      (by norm_num)⟩

end ConcreteEvaluation

end SplitLedger
